import Mathlib

/-!
Verification development for the rawboard arcade leaderboard service.

The definitions below are a shallow embedding of the Go sources:
  - internal/leaderboard/service.go  (score submission, the three derived
    views, leaderboard regeneration, migration, stats and analysis)
  - internal/models/player.go        (ScoreEntry / Leaderboard validation)
  - the HTTP handler layer           (request validation, query defaults)

Modelling conventions:
  - Go strings are Lean `String`s (sequences of Unicode scalars); Go `len`
    is UTF-8 byte length, modelled by `goLen`.  `strings.ToUpper` is
    modelled by the ASCII case map (`Char.toUpper`), which agrees with Go
    on ASCII input and on characters without an ASCII case mapping.
  - `time.Time` values are a logical clock of type `Nat`; every operation
    receives the current instant `now` explicitly.  `Before`/`After`
    become `<`/`>` on `Nat`.
  - int64 scores are `Int` (no arithmetic in the service can overflow
    int64 given validated inputs).
  - The key-value store maps string keys to typed payloads; JSON
    round-tripping is modelled as the identity on a typed value, and a
    persisted payload that fails to deserialize is the `corrupt` marker.
    A value of the wrong record shape also fails to decode.  Store `set`
    never fails (external store outages are outside the embedding);
    therefore the only modelled failure of a write path is the
    marshal-time validation performed by `Leaderboard.MarshalJSON`.
  - Go maps are association lists; assignment replaces in place or
    appends, and iteration follows list order (Go iteration order is
    unspecified, so theorems about iteration-dependent results are stated
    so that they hold for this particular order, and order-independent
    facts are proved from sortedness).
  - A nil-pointer dereference (a Go runtime panic) is modelled by an
    `Option` result being `none`.
-/

namespace Rawboard

/-- Models `strings.TrimSpace`: drop leading and trailing whitespace. -/
def goTrimSpace (s : String) : String :=
  String.mk (((s.data.dropWhile Char.isWhitespace).reverse.dropWhile Char.isWhitespace).reverse)

/-- Models `strings.ToUpper` (ASCII case mapping, identity elsewhere). -/
def goToUpper (s : String) : String :=
  String.mk (s.data.map Char.toUpper)

/-- Models Go `len` on a string: the UTF-8 byte length. -/
def goLen (s : String) : Nat :=
  s.data.foldl (fun n c => n + c.utf8Size) 0

/-- Models `strings.Contains(s, " ")` (the needle is a single space). -/
def goContainsSpace (s : String) : Bool :=
  s.data.contains ' '

/-- The normalization applied to initials throughout the code base:
`strings.ToUpper(strings.TrimSpace(s))`. -/
def normalizeInitials (s : String) : String :=
  goToUpper (goTrimSpace s)

/-- models.ScoreEntry. -/
structure Entry where
  initials : String
  score : Int
  timestamp : Nat

/-- models.AllScoresRecord: the complete per-game score history. -/
structure AllScoresRecord where
  gameID : String
  scores : List Entry
  updated : Nat

/-- models.PlayerHighScores: per-game map from initials to best entry.
The Go map is modelled as an association list. -/
structure PlayerHighScores where
  gameID : String
  highScores : List (String × Entry)
  updated : Nat

/-- models.Leaderboard: the cached filtered view. -/
structure Leaderboard where
  gameID : String
  entries : List Entry

/-- A value persisted in the key-value store: one of the three record
shapes, or a payload that fails to deserialize. -/
inductive StoredVal where
  | history (r : AllScoresRecord)
  | highs (r : PlayerHighScores)
  | board (r : Leaderboard)
  | corrupt

/-- The key-value store, as an association list of keys to payloads. -/
abbrev Store := List (String × StoredVal)

/-- Error kinds surfaced by the service and handlers. -/
inductive Err where
  | invalidInput
  | notFound
  | corruptRecord

/-- Key of the cached leaderboard view: `leaderboard:{gameId}`. -/
def keyBoard (g : String) : String := "leaderboard:" ++ g

/-- Key of the score history: `all_scores:{gameId}`. -/
def keyAll (g : String) : String := "all_scores:" ++ g

/-- Key of the per-player high-score index: `player_high_scores:{gameId}`. -/
def keyHigh (g : String) : String := "player_high_scores:" ++ g

/-- Store read (`db.Get`): `none` models a NotFound error. -/
def lookupS : Store → String → Option StoredVal
  | [], _ => none
  | (k0, v) :: rest, k => if k = k0 then some v else lookupS rest k

/-- Store write (`db.Set`): replace in place, or append a new binding. -/
def setS : Store → String → StoredVal → Store
  | [], k, v => [(k, v)]
  | (k0, v0) :: rest, k, v =>
    if k = k0 then (k, v) :: rest else (k0, v0) :: setS rest k v

/-- Go map read `m[k]` on the high-score index. -/
def lookupA : List (String × Entry) → String → Option Entry
  | [], _ => none
  | (k0, v) :: rest, k => if k = k0 then some v else lookupA rest k

/-- Go map assignment `m[k] = v` on the high-score index. -/
def insertA : List (String × Entry) → String → Entry → List (String × Entry)
  | [], k, v => [(k, v)]
  | (k0, v0) :: rest, k, v =>
    if k = k0 then (k, v) :: rest else (k0, v0) :: insertA rest k v

/-- models.ScoreEntry.Validate as a predicate: normalized initials must be
3 bytes with no ASCII space, and the score must lie in
[0, 999999999]. -/
def validEntry (e : Entry) : Bool :=
  let ni := normalizeInitials e.initials
  goLen ni == 3 && !goContainsSpace ni &&
    decide (0 ≤ e.score) && decide (e.score ≤ 999999999)

/-- models.Leaderboard.Validate: non-empty game id of byte length at most
50, at most 10 entries, every entry valid. -/
def validBoard (lb : Leaderboard) : Bool :=
  !(goTrimSpace lb.gameID == "") && decide (goLen lb.gameID ≤ 50) &&
    decide (lb.entries.length ≤ 10) && lb.entries.all validEntry

/-- The leaderboard ordering used by `regenerateFilteredLeaderboard`:
`a` may precede `b` when `a` has the larger score, or on an exact score
tie when `a` has the more recent (larger or equal) timestamp. -/
def leEntry (a b : Entry) : Prop :=
  b.score < a.score ∨ (a.score = b.score ∧ b.timestamp ≤ a.timestamp)

instance : DecidableRel leEntry := by
  intro a b
  unfold leEntry
  infer_instance

instance : IsTotal Entry leEntry := by
  constructor
  intro a b
  unfold leEntry
  rcases lt_trichotomy a.score b.score with h | h | h
  · exact Or.inr (Or.inl h)
  · rcases le_total b.timestamp a.timestamp with ht | ht
    · exact Or.inl (Or.inr ⟨h, ht⟩)
    · exact Or.inr (Or.inr ⟨h.symm, ht⟩)
  · exact Or.inl (Or.inl h)

instance : IsTrans Entry leEntry := by
  constructor
  intro a b c hab hbc
  unfold leEntry at *
  rcases hab with h1 | ⟨h1, h1t⟩ <;> rcases hbc with h2 | ⟨h2, h2t⟩
  · exact Or.inl (h2.trans h1)
  · exact Or.inl (h2 ▸ h1)
  · exact Or.inl (h1 ▸ h2)
  · exact Or.inr ⟨h1.trans h2, h2t.trans h1t⟩

/-- Timestamp-ascending ordering used by `calculateAchievements`. -/
def timeLE (a b : Entry) : Prop := a.timestamp ≤ b.timestamp

instance : DecidableRel timeLE := by
  intro a b
  unfold timeLE
  infer_instance

instance : IsTotal Entry timeLE :=
  ⟨fun a b => le_total a.timestamp b.timestamp⟩

instance : IsTrans Entry timeLE :=
  ⟨fun _ _ _ hab hbc => Nat.le_trans hab hbc⟩

/-- Decode a persisted history payload. -/
def decodeHistory : StoredVal → Option AllScoresRecord
  | .history r => some r
  | _ => none

/-- Decode a persisted high-score-index payload. -/
def decodeHighs : StoredVal → Option PlayerHighScores
  | .highs r => some r
  | _ => none

/-- Decode a persisted leaderboard payload. -/
def decodeBoard : StoredVal → Option Leaderboard
  | .board r => some r
  | _ => none

/-- Service.getAllScores: read and decode `all_scores:{g}`.  Any `db.Get`
failure is reported as "no score history found" and a payload that fails
to decode as an unmarshal error. -/
def getAllScores (st : Store) (g : String) : Except Err AllScoresRecord :=
  match lookupS st (keyAll g) with
  | none => .error .notFound
  | some v =>
    match decodeHistory v with
    | some r => .ok r
    | none => .error .corruptRecord

/-- Service.getPlayerHighScores: read and decode `player_high_scores:{g}`. -/
def getPlayerHighScores (st : Store) (g : String) : Except Err PlayerHighScores :=
  match lookupS st (keyHigh g) with
  | none => .error .notFound
  | some v =>
    match decodeHighs v with
    | some r => .ok r
    | none => .error .corruptRecord

/-- Service.getRawLeaderboard: read and decode `leaderboard:{g}` without
triggering migration. -/
def getRawLeaderboard (st : Store) (g : String) : Except Err Leaderboard :=
  match lookupS st (keyBoard g) with
  | none => .error .notFound
  | some v =>
    match decodeBoard v with
    | some r => .ok r
    | none => .error .corruptRecord

/-- Service.saveLeaderboard: `Leaderboard.MarshalJSON` validates the board
before encoding, so an invalid board fails the save and nothing is
written; otherwise the board is persisted under `leaderboard:{g}`. -/
def saveLeaderboard (st : Store) (lb : Leaderboard) : Except Err Store :=
  if validBoard lb then .ok (setS st (keyBoard lb.gameID) (.board lb)) else .error .invalidInput

/-- Service.addToAllScores: load the existing history (treating any load
failure as absence of a record), append the new entry, write back.  The
write itself cannot fail in the model (AllScoresRecord has no validating
marshaller). -/
def addToAllScores (st : Store) (g ini : String) (score : Int) (now : Nat) : Store :=
  let entry : Entry := ⟨ini, score, now⟩
  let base : AllScoresRecord :=
    match getAllScores st g with
    | .ok r => r
    | .error _ => ⟨g, [], now⟩
  setS st (keyAll g) (.history { base with scores := base.scores ++ [entry], updated := now })

/-- Service.updatePlayerHighScore: load the index (any load failure starts
an empty one); replace the player's entry only when none exists or the
incoming score is strictly greater; write back only on replacement. -/
def updatePlayerHighScore (st : Store) (g ini : String) (score : Int) (now : Nat) : Store :=
  let base : PlayerHighScores :=
    match getPlayerHighScores st g with
    | .ok r => r
    | .error _ => ⟨g, [], now⟩
  match lookupA base.highScores ini with
  | some e =>
    if score > e.score then
      setS st (keyHigh g)
        (.highs { base with highScores := insertA base.highScores ini ⟨ini, score, now⟩, updated := now })
    else st
  | none =>
    setS st (keyHigh g)
      (.highs { base with highScores := insertA base.highScores ini ⟨ini, score, now⟩, updated := now })

/-- Service.regenerateFilteredLeaderboard: read the index, sort its values
by score descending with most-recent-first tie-break, truncate to 10 and
save as the cached view. -/
def regenerateFilteredLeaderboard (st : Store) (g : String) : Except Err Store :=
  match getPlayerHighScores st g with
  | .error e => .error e
  | .ok hs =>
    let sorted := List.insertionSort leEntry (hs.highScores.map Prod.snd)
    saveLeaderboard st ⟨g, sorted.take 10⟩

/-- Service.SubmitScore: normalize and check initials, append to the
history, update the high-score index, regenerate the cached leaderboard.
The second component is the resulting store even on failure (completed
steps are not rolled back). -/
def submitScore (st : Store) (g initials0 : String) (score : Int) (now : Nat) :
    Except Err Unit × Store :=
  let ini := normalizeInitials initials0
  if goLen ini ≠ 3 ∨ goContainsSpace ini then (.error .invalidInput, st)
  else
    let st1 := addToAllScores st g ini score now
    let st2 := updatePlayerHighScore st1 g ini score now
    match regenerateFilteredLeaderboard st2 g with
    | .ok st3 => (.ok (), st3)
    | .error e => (.error e, st2)

/-- The fold inside MigrateExistingLeaderboard that keeps only the highest
score per initials. -/
def buildHighScores (entries : List Entry) : List (String × Entry) :=
  entries.foldl
    (fun m e =>
      match lookupA m e.initials with
      | some ex => if e.score > ex.score then insertA m e.initials e else m
      | none => insertA m e.initials e)
    []

/-- Service.MigrateExistingLeaderboard: no-op when no legacy view decodes
or when a history record already decodes; otherwise synthesize the
history and the index from the legacy entries and regenerate the cached
view.  The store component records partial writes on failure. -/
def migrateExistingLeaderboard (st : Store) (g : String) (now : Nat) :
    Except Err Unit × Store :=
  match getRawLeaderboard st g with
  | .error _ => (.ok (), st)
  | .ok lb =>
    match getAllScores st g with
    | .ok _ => (.ok (), st)
    | .error _ =>
      let st1 := setS st (keyAll g) (.history ⟨g, lb.entries, now⟩)
      let st2 := setS st1 (keyHigh g) (.highs ⟨g, buildHighScores lb.entries, now⟩)
      match regenerateFilteredLeaderboard st2 g with
      | .ok st3 => (.ok (), st3)
      | .error e => (.error e, st2)

/-- Service.GetLeaderboard: read the cached view; on a missing record,
attempt the one-time migration and retry; decode failures surface as
unmarshal errors. -/
def getLeaderboard (st : Store) (g : String) (now : Nat) :
    Except Err Leaderboard × Store :=
  match lookupS st (keyBoard g) with
  | some v =>
    (match decodeBoard v with
     | some b => .ok b
     | none => .error .corruptRecord, st)
  | none =>
    match migrateExistingLeaderboard st g now with
    | (.error e, st1) => (.error e, st1)
    | (.ok _, st1) =>
      match lookupS st1 (keyBoard g) with
      | none => (.error .notFound, st1)
      | some v =>
        (match decodeBoard v with
         | some b => .ok b
         | none => .error .corruptRecord, st1)

/-- models.Achievement (the `unlockedAt` instant is the logical clock). -/
structure Achievement where
  id : String
  name : String
  description : String
  unlockedAt : Nat
  icon : String

/-- One score milestone of `calculateAchievements`. -/
structure Milestone where
  score : Int
  id : String
  name : String
  icon : String

/-- The milestone table of `calculateAchievements`, in source order. -/
def milestones : List Milestone :=
  [⟨1000, "score_1k", "Getting Started", "⭐"⟩,
   ⟨5000, "score_5k", "Rising Star", "🌟"⟩,
   ⟨10000, "score_10k", "High Achiever", "💫"⟩,
   ⟨25000, "score_25k", "Score Master", "🏆"⟩,
   ⟨50000, "score_50k", "Legend", "👑"⟩]

/-- The running-maximum fold (`if score > high { high = score }`, starting
from 0) used wherever the code computes a player's high score. -/
def runningHigh (l : List Entry) : Int :=
  l.foldl (fun h e => if e.score > h then e.score else h) 0

/-- The achievement produced for an unlocked milestone: timestamped at the
first entry of the time-sorted history whose score meets the threshold,
or the zero instant if none does. -/
def milestoneAch (sorted : List Entry) (m : Milestone) : Achievement :=
  ⟨m.id, m.name, "Reach " ++ toString m.score ++ " points",
   ((sorted.find? (fun e => e.score ≥ m.score)).map Entry.timestamp).getD 0, m.icon⟩

/-- Service.calculateAchievements: sort by timestamp ascending, always
unlock first_score, unlock each milestone whose threshold the high score
meets (timestamped at the first sorted entry meeting it, or the zero
instant if none does), then dedication achievements at 5 and 10
submissions. -/
def calculateAchievements (playerScores : List Entry) (highScore : Int) : List Achievement :=
  match List.insertionSort timeLE playerScores with
  | [] => []
  | first :: rest =>
    let sorted := first :: rest
    let milestoneAchs := milestones.filterMap (fun m =>
      if highScore ≥ m.score then some (milestoneAch sorted m) else none)
    let dedicated := if 5 ≤ sorted.length then
        [⟨"dedicated_player", "Dedicated Player", "Submit 5 or more scores",
          ((sorted.get? 4).map Entry.timestamp).getD 0, "🎮"⟩]
      else []
    let hunter := if 10 ≤ sorted.length then
        [⟨"score_hunter", "Score Hunter", "Submit 10 or more scores",
          ((sorted.get? 9).map Entry.timestamp).getD 0, "🏹"⟩]
      else []
    ⟨"first_score", "First Score", "Submit your first score", first.timestamp, "🎯"⟩
      :: (milestoneAchs ++ dedicated ++ hunter)

/-- The first/last-played loop of the stats computations: the first entry
initializes both bounds, later entries update them by strict
comparison. -/
def firstLastPlayed : List Entry → Nat × Nat
  | [] => (0, 0)
  | e :: rest =>
    rest.foldl
      (fun fl x =>
        (if x.timestamp < fl.1 then x.timestamp else fl.1,
         if x.timestamp > fl.2 then x.timestamp else fl.2))
      (e.timestamp, e.timestamp)

/-- The rank scan of GetEnhancedPlayerStats: 1-based position of the first
leaderboard entry with the given initials. -/
def findRankAux : List Entry → String → Nat → Option Nat
  | [], _, _ => none
  | e :: rest, ini, i =>
    if e.initials = ini then some (i + 1) else findRankAux rest ini (i + 1)

/-- models.EnhancedPlayerStats.  The float64 `averageScore` is represented
exactly by its numerator `totalScoreSum` together with `totalScores`. -/
structure EnhancedPlayerStats where
  initials : String
  highScore : Int
  totalScores : Nat
  lastPlayed : Nat
  totalScoreSum : Int
  firstPlayed : Nat
  currentRank : Option Nat
  achievements : List Achievement
  scoreHistory : List Entry

/-- Service.GetEnhancedPlayerStats: normalize initials (length check
only), read the history, filter the player's entries, compute aggregate
stats and achievements, and look up the current rank from the cached
leaderboard, ignoring leaderboard read errors. -/
def getEnhancedPlayerStats (st : Store) (g initials0 : String) (includeHistory : Bool)
    (now : Nat) : Except Err EnhancedPlayerStats × Store :=
  let ini := normalizeInitials initials0
  if goLen ini ≠ 3 then (.error .invalidInput, st)
  else
    match getAllScores st g with
    | .error _ => (.error .notFound, st)
    | .ok allScores =>
      let playerScores := allScores.scores.filter (fun e => e.initials = ini)
      if playerScores.isEmpty then (.error .notFound, st)
      else
        let high := runningHigh playerScores
        let total := playerScores.foldl (fun s e => s + e.score) 0
        let fl := firstLastPlayed playerScores
        match getLeaderboard st g now with
        | (lbRes, st1) =>
          let rank :=
            match lbRes with
            | .ok lb => findRankAux lb.entries ini 0
            | .error _ => none
          (.ok ⟨ini, high, playerScores.length, fl.2, total, fl.1, rank,
                calculateAchievements playerScores high,
                if includeHistory then playerScores else []⟩, st1)

/-- The grouping map `playerMap[initials] = append(...)` of
GetScoreAnalysis, as an association list in first-seen order. -/
def appendGroup : List (String × List Entry) → String → Entry → List (String × List Entry)
  | [], k, e => [(k, [e])]
  | (k0, es) :: rest, k, e =>
    if k = k0 then (k0, es ++ [e]) :: rest else (k0, es) :: appendGroup rest k e

/-- Group all history entries by initials, in submission order. -/
def groupByPlayer (l : List Entry) : List (String × List Entry) :=
  l.foldl (fun m e => appendGroup m e.initials e) []

/-- One bucket of the score distribution of GetScoreAnalysis. -/
structure Bucket where
  lo : Int
  hi : Int
  label : String

/-- The fixed distribution buckets, in source order. -/
def buckets : List Bucket :=
  [⟨0, 999, "0-999"⟩, ⟨1000, 4999, "1K-5K"⟩, ⟨5000, 9999, "5K-10K"⟩,
   ⟨10000, 24999, "10K-25K"⟩, ⟨25000, 49999, "25K-50K"⟩,
   ⟨50000, 999999999, "50K+"⟩]

/-- The score-distribution map of GetScoreAnalysis: each entry is counted
in the first bucket containing it (the buckets are disjoint), and the Go
map holds exactly the labels with a non-zero count. -/
def scoreDistOf (scores : List Entry) : List (String × Nat) :=
  (buckets.map (fun b =>
    (b.label, (scores.filter (fun e => decide (b.lo ≤ e.score) && decide (e.score ≤ b.hi))).length))).filter
    (fun p => p.2 ≠ 0)

/-- The recent-achievement sweep of GetScoreAnalysis: per player,
recompute achievements from their slice and keep those unlocked strictly
after the cutoff. -/
def recentAchievementsOf (groups : List (String × List Entry)) (cutoff : Nat) : List Achievement :=
  groups.foldl
    (fun acc kv =>
      acc ++ (calculateAchievements kv.2 (runningHigh kv.2)).filter
        (fun a => cutoff < a.unlockedAt))
    []

/-- The 24-hour cutoff `time.Now().Add(-24 * time.Hour)`, with one logical
tick per second (truncated at zero). -/
def cutoff24h (now : Nat) : Nat := now - 86400

/-- models.ScoreAnalysisResponse (float64 `averageScore` represented by
`totalScoreSum` and `totalScores`; the distribution map as a label-count
list). -/
structure ScoreAnalysisResponse where
  gameID : String
  totalPlayers : Nat
  totalScores : Nat
  highestScore : Int
  totalScoreSum : Int
  lastActivity : Nat
  topPlayers : List EnhancedPlayerStats
  scoreDistribution : List (String × Nat)
  recentAchievements : List Achievement
  updated : Nat

/-- The top-player loop of GetScoreAnalysis: for each leaderboard entry in
order, append the enhanced stats when they compute, skipping errors, and
thread the store through each (possibly migrating) read. -/
def collectTopPlayers (g : String) (now : Nat) :
    List Entry → Store → List EnhancedPlayerStats × Store
  | [], st => ([], st)
  | e :: rest, st =>
    match getEnhancedPlayerStats st g e.initials false now with
    | (.ok s, st1) =>
      let r := collectTopPlayers g now rest st1
      (s :: r.1, r.2)
    | (.error _, st1) => collectTopPlayers g now rest st1

/-- Service.GetScoreAnalysis.  The result is `none` exactly when the code
panics: the error of the inner GetLeaderboard call is discarded and the
nil leaderboard pointer is dereferenced by the top-player loop. -/
def getScoreAnalysis (st : Store) (g : String) (topPlayersLimit : Int) (now : Nat) :
    Option ((Except Err ScoreAnalysisResponse) × Store) :=
  match getAllScores st g with
  | .error _ => some (.error .notFound, st)
  | .ok allScores =>
    if allScores.scores.isEmpty then some (.error .notFound, st)
    else
      let totalScores := allScores.scores.length
      let highestScore := runningHigh allScores.scores
      let totalScoreSum := allScores.scores.foldl (fun s e => s + e.score) 0
      let lastActivity :=
        allScores.scores.foldl (fun l e => if l < e.timestamp then e.timestamp else l) 0
      let groups := groupByPlayer allScores.scores
      match getLeaderboard st g now with
      | (.error _, _) => none
      | (.ok lb, st1) =>
        let limit : Int := if topPlayersLimit ≤ 0 ∨ 10 < topPlayersLimit then 10 else topPlayersLimit
        let tp := collectTopPlayers g now (lb.entries.take limit.toNat) st1
        some (.ok ⟨g, groups.length, totalScores, highestScore, totalScoreSum, lastActivity,
                   tp.1, scoreDistOf allScores.scores,
                   recentAchievementsOf groups (cutoff24h now), now⟩, tp.2)

/-- models.ScoreEntry.Validate as used by the submission handler: on
success it yields the normalized initials the handler forwards to the
service. -/
def scoreEntryValidate (initials0 : String) (score : Int) : Except Err String :=
  let ini := normalizeInitials initials0
  if goLen ini ≠ 3 then .error .invalidInput
  else if goContainsSpace ini then .error .invalidInput
  else if score < 0 then .error .invalidInput
  else if 999999999 < score then .error .invalidInput
  else .ok ini

/-- LeaderboardHandler.SubmitScore: validate the game id and the request
entry, then call the service with the validated entry's fields. -/
def handlerSubmitScore (st : Store) (g initials0 : String) (score : Int) (now : Nat) :
    Except Err Unit × Store :=
  if g = "" then (.error .invalidInput, st)
  else if goLen g > 50 ∨ goLen g < 1 then (.error .invalidInput, st)
  else
    match scoreEntryValidate initials0 score with
    | .error e => (.error e, st)
    | .ok ini => submitScore st g ini score now

/-- LeaderboardHandler.GetScoreAnalysis top-player query parsing: default
5; an absent or unparseable value keeps the default, a parsed value is
used only when it lies in [1, 10]. -/
def parseTopPlayersLimit (q : Option Int) : Int :=
  match q with
  | none => 5
  | some n => if 0 < n ∧ n ≤ 10 then n else 5

/-- LeaderboardHandler.GetScoreAnalysis: validate the game id, then call
the service with the parsed limit. -/
def handlerGetScoreAnalysis (st : Store) (g : String) (q : Option Int) (now : Nat) :
    Option ((Except Err ScoreAnalysisResponse) × Store) :=
  if g = "" then some (.error .invalidInput, st)
  else if goLen g > 50 ∨ goLen g < 1 then some (.error .invalidInput, st)
  else getScoreAnalysis st g (parseTopPlayersLimit q) now

/-- A sequence of SubmitScore calls for one game and one player, one
logical tick apart, stopping at the first failure. -/
def runSubmitsAux (g initials0 : String) : List Int → Nat → Store → Except Err Unit × Store
  | [], _, st => (.ok (), st)
  | s :: rest, t, st =>
    match submitScore st g initials0 s t with
    | (.ok _, st1) => runSubmitsAux g initials0 rest (t + 1) st1
    | (.error e, st1) => (.error e, st1)

/-- Run a submission sequence from the empty store at clock 0. -/
def runSubmits (g initials0 : String) (scores : List Int) : Except Err Unit × Store :=
  runSubmitsAux g initials0 scores 0 []

/-- Observation: the entries of the persisted cached leaderboard. -/
def boardEntriesOf (st : Store) (g : String) : Option (List Entry) :=
  ((lookupS st (keyBoard g)).bind decodeBoard).map Leaderboard.entries

/-- Observation: the stored high-score entry of one player. -/
def highEntryOf (st : Store) (g ini : String) : Option Entry :=
  match getPlayerHighScores st g with
  | .ok hs => lookupA hs.highScores ini
  | .error _ => none

/-- Whether an Except is a success. -/
def isOkE {α : Type} : Except Err α → Bool
  | .ok _ => true
  | .error _ => false

theorem length_keyAll (g : String) : (keyAll g).length = 11 + g.length := by
  have h : ("all_scores:").length = 11 := rfl
  unfold keyAll
  rw [String.length_append, h]

theorem length_keyHigh (g : String) : (keyHigh g).length = 19 + g.length := by
  have h : ("player_high_scores:").length = 19 := rfl
  unfold keyHigh
  rw [String.length_append, h]

theorem length_keyBoard (g : String) : (keyBoard g).length = 12 + g.length := by
  have h : ("leaderboard:").length = 12 := rfl
  unfold keyBoard
  rw [String.length_append, h]

theorem keyAll_ne_keyHigh (g : String) : keyAll g ≠ keyHigh g := by
  intro h
  have := congrArg String.length h
  rw [length_keyAll, length_keyHigh] at this
  omega

theorem keyAll_ne_keyBoard (g : String) : keyAll g ≠ keyBoard g := by
  intro h
  have := congrArg String.length h
  rw [length_keyAll, length_keyBoard] at this
  omega

theorem keyHigh_ne_keyBoard (g : String) : keyHigh g ≠ keyBoard g := by
  intro h
  have := congrArg String.length h
  rw [length_keyHigh, length_keyBoard] at this
  omega

theorem lookupS_setS_self (st : Store) (k : String) (v : StoredVal) :
    lookupS (setS st k v) k = some v := by
  induction st with
  | nil => simp [setS, lookupS]
  | cons p rest ih =>
    by_cases h : k = p.1
    · simp [setS, lookupS, h]
    · simp [setS, lookupS, h, ih]

theorem lookupS_setS_ne (st : Store) (k k1 : String) (v : StoredVal) (h : k ≠ k1) :
    lookupS (setS st k1 v) k = lookupS st k := by
  induction st with
  | nil => simp [setS, lookupS, h]
  | cons p rest ih =>
    by_cases h1 : k1 = p.1
    · subst h1
      simp [setS, lookupS, h]
    · by_cases h2 : k = p.1
      · simp [setS, lookupS, h1, h2]
      · simp [setS, lookupS, h1, h2, ih]

theorem lookupA_insertA_self (m : List (String × Entry)) (k : String) (v : Entry) :
    lookupA (insertA m k v) k = some v := by
  induction m with
  | nil => simp [insertA, lookupA]
  | cons p rest ih =>
    by_cases h : k = p.1
    · simp [insertA, lookupA, h]
    · simp [insertA, lookupA, h, ih]

theorem lookupA_insertA_ne (m : List (String × Entry)) (k k1 : String) (v : Entry)
    (h : k ≠ k1) : lookupA (insertA m k1 v) k = lookupA m k := by
  induction m with
  | nil => simp [insertA, lookupA, h]
  | cons p rest ih =>
    by_cases h1 : k1 = p.1
    · subst h1
      simp [insertA, lookupA, h]
    · by_cases h2 : k = p.1
      · simp [insertA, lookupA, h1, h2]
      · simp [insertA, lookupA, h1, h2, ih]

theorem getPlayerHighScores_setS_all (st : Store) (g : String) (v : StoredVal) :
    getPlayerHighScores (setS st (keyAll g) v) g = getPlayerHighScores st g := by
  unfold getPlayerHighScores
  rw [lookupS_setS_ne _ _ _ _ (Ne.symm (keyAll_ne_keyHigh g))]

theorem getPlayerHighScores_setS_board (st : Store) (g : String) (v : StoredVal) :
    getPlayerHighScores (setS st (keyBoard g) v) g = getPlayerHighScores st g := by
  unfold getPlayerHighScores
  rw [lookupS_setS_ne _ _ _ _ (keyHigh_ne_keyBoard g)]

theorem getAllScores_setS_high (st : Store) (g : String) (v : StoredVal) :
    getAllScores (setS st (keyHigh g) v) g = getAllScores st g := by
  unfold getAllScores
  rw [lookupS_setS_ne _ _ _ _ (keyAll_ne_keyHigh g)]

theorem getAllScores_setS_board (st : Store) (g : String) (v : StoredVal) :
    getAllScores (setS st (keyBoard g) v) g = getAllScores st g := by
  unfold getAllScores
  rw [lookupS_setS_ne _ _ _ _ (keyAll_ne_keyBoard g)]

/-- C2, counterexample.  The claim says a corrupt persisted history record
makes SubmitScore's history step fail.  In the code the load error of
`getAllScores` is swallowed: from a store whose history record for game
g01 is corrupt, the whole submission succeeds and the persisted history
afterwards is a fresh record holding only the new entry. -/
theorem addToAllScores_swallows_corrupt :
    (submitScore [(keyAll "g01", .corrupt)] "g01" "ABC" 100 5).1 = .ok () ∧
    getAllScores (submitScore [(keyAll "g01", .corrupt)] "g01" "ABC" 100 5).2 "g01" =
      .ok ⟨"g01", [⟨"ABC", 100, 5⟩], 5⟩ := by
  constructor <;> rfl

/-- C2, amended.  `addToAllScores` treats every failure to load the
existing history — a missing record as well as a payload that fails to
deserialize — as absence and persists a fresh record containing only the
new entry; no error is propagated from the load. -/
theorem addToAllScores_fresh_on_load_failure (st : Store) (g ini : String) (sc : Int)
    (now : Nat) (e : Err) (h : getAllScores st g = .error e) :
    getAllScores (addToAllScores st g ini sc now) g = .ok ⟨g, [⟨ini, sc, now⟩], now⟩ := by
  unfold addToAllScores
  rw [h]
  unfold getAllScores
  rw [lookupS_setS_self]
  simp [decodeHistory]

/-- Witness for the amended C2 at a concrete corrupt store. -/
theorem addToAllScores_fresh_on_load_failure_witness :
    getAllScores (addToAllScores [(keyAll "g02", .corrupt)] "g02" "XYZ" 7 3) "g02" =
      .ok ⟨"g02", [⟨"XYZ", 7, 3⟩], 3⟩ :=
  addToAllScores_fresh_on_load_failure [(keyAll "g02", .corrupt)] "g02" "XYZ" 7 3
    .corruptRecord rfl

/-- C10.  GetScoreAnalysis is not total: when the history record exists
and is non-empty but no cached leaderboard record exists (and migration
cannot recreate one), the discarded GetLeaderboard error leaves a nil
leaderboard pointer whose `Entries` field is dereferenced — a runtime
panic, modelled by the `none` result. -/
theorem getScoreAnalysis_panics_without_board :
    getScoreAnalysis [(keyAll "g01", .history ⟨"g01", [⟨"AAA", 100, 0⟩], 0⟩)] "g01" 5 1 =
      none := by
  rfl

/-- C4.  The high-score index update leaves the store untouched (no
write-back, stored entry and its timestamp unchanged) whenever an entry
for the player exists with at least the incoming score; it installs the
fresh entry exactly when no entry exists or the incoming score is
strictly greater. -/
theorem updatePlayerHighScore_strict (st : Store) (g ini : String) (sc : Int) (now : Nat) :
    (∀ hs e, getPlayerHighScores st g = .ok hs → lookupA hs.highScores ini = some e →
      sc ≤ e.score → updatePlayerHighScore st g ini sc now = st) ∧
    ((highEntryOf st g ini = none ∨ ∃ e, highEntryOf st g ini = some e ∧ e.score < sc) →
      highEntryOf (updatePlayerHighScore st g ini sc now) g ini = some ⟨ini, sc, now⟩) := by
  refine ⟨?_, ?_⟩
  · intro hs e hget hfind hle
    simp only [updatePlayerHighScore, hget, hfind]
    rw [if_neg (by omega)]
  · intro hcase
    cases hget : getPlayerHighScores st g with
    | ok hs =>
      have hh : highEntryOf st g ini = lookupA hs.highScores ini := by
        unfold highEntryOf
        rw [hget]
      rw [hh] at hcase
      cases hfind : lookupA hs.highScores ini with
      | some e =>
        rw [hfind] at hcase
        have hlt : e.score < sc := by
          rcases hcase with h | ⟨e1, he1, hlt⟩
          · exact absurd h (by simp)
          · cases Option.some.inj he1
            exact hlt
        simp only [updatePlayerHighScore, hget, hfind]
        rw [if_pos (show sc > e.score by omega)]
        unfold highEntryOf getPlayerHighScores
        rw [lookupS_setS_self]
        simp [decodeHighs, lookupA_insertA_self]
      | none =>
        simp only [updatePlayerHighScore, hget, hfind]
        unfold highEntryOf getPlayerHighScores
        rw [lookupS_setS_self]
        simp [decodeHighs, lookupA_insertA_self]
    | error e1 =>
      simp only [updatePlayerHighScore, hget, lookupA]
      unfold highEntryOf getPlayerHighScores
      rw [lookupS_setS_self]
      simp [decodeHighs, lookupA_insertA_self]

/-- Witness for C4: an equal incoming score leaves the concrete store
unchanged, while a strictly greater one installs the fresh entry. -/
theorem updatePlayerHighScore_strict_witness :
    updatePlayerHighScore [(keyHigh "g01", .highs ⟨"g01", [("ABC", ⟨"ABC", 100, 0⟩)], 0⟩)]
        "g01" "ABC" 100 7 =
      [(keyHigh "g01", .highs ⟨"g01", [("ABC", ⟨"ABC", 100, 0⟩)], 0⟩)] ∧
    highEntryOf (updatePlayerHighScore
        [(keyHigh "g01", .highs ⟨"g01", [("ABC", ⟨"ABC", 100, 0⟩)], 0⟩)] "g01" "ABC" 150 7)
        "g01" "ABC" = some ⟨"ABC", 150, 7⟩ := by
  constructor
  · exact (updatePlayerHighScore_strict
      [(keyHigh "g01", .highs ⟨"g01", [("ABC", ⟨"ABC", 100, 0⟩)], 0⟩)] "g01" "ABC" 100 7).1
      ⟨"g01", [("ABC", ⟨"ABC", 100, 0⟩)], 0⟩ ⟨"ABC", 100, 0⟩ rfl rfl (by decide)
  · exact (updatePlayerHighScore_strict
      [(keyHigh "g01", .highs ⟨"g01", [("ABC", ⟨"ABC", 100, 0⟩)], 0⟩)] "g01" "ABC" 150 7).2
      (Or.inr ⟨⟨"ABC", 100, 0⟩, rfl, by decide⟩)

theorem foldl_utf8_one (l : List Char) (h : ∀ c ∈ l, c.utf8Size = 1) :
    ∀ a : Nat, l.foldl (fun n c => n + c.utf8Size) a = a + l.length := by
  induction l with
  | nil => simp
  | cons c rest ih =>
    intro a
    have hc : c.utf8Size = 1 := h c (by simp)
    have hrest : ∀ x ∈ rest, x.utf8Size = 1 := fun x hx => h x (by simp [hx])
    simp only [List.foldl_cons, ih hrest, hc, List.length_cons]
    omega

theorem goLen_eq_length_of_ascii (s : String) (h : ∀ c ∈ s.data, c.utf8Size = 1) :
    goLen s = s.length := by
  unfold goLen
  rw [foldl_utf8_one s.data h 0, Nat.zero_add]
  rfl

/-- C5, counterexample.  The initials "ÄA" normalize to a 2-character
string ("Ä" occupies two UTF-8 bytes), so they do not consist of exactly
3 non-space characters; yet the byte-length check of the validation
accepts them and the submission succeeds. -/
theorem handlerSubmitScore_accepts_two_chars :
    (handlerSubmitScore [] "g01" "ÄA" 100 0).1 = .ok () ∧
    (normalizeInitials "ÄA").length = 2 := by
  constructor <;> rfl

/-- C5, amended.  Scores outside [0, 999999999] are always rejected with
InvalidInput and the store is untouched; initials are rejected exactly by
the byte-length test: rejection whenever the normalized form's UTF-8 byte
length differs from 3 or it contains a space, and in particular every
all-ASCII initials value that does not normalize to exactly 3 characters
is rejected.  (A non-ASCII initials value occupying exactly 3 bytes is
accepted even with fewer than 3 characters.) -/
theorem handlerSubmitScore_validation (st : Store) (g ini : String) (sc : Int) (now : Nat) :
    ((sc < 0 ∨ 999999999 < sc) →
      handlerSubmitScore st g ini sc now = (.error .invalidInput, st)) ∧
    ((goLen (normalizeInitials ini) ≠ 3 ∨ goContainsSpace (normalizeInitials ini)) →
      handlerSubmitScore st g ini sc now = (.error .invalidInput, st)) ∧
    ((∀ c ∈ (normalizeInitials ini).data, c.utf8Size = 1) →
      (normalizeInitials ini).length ≠ 3 →
      handlerSubmitScore st g ini sc now = (.error .invalidInput, st)) := by
  refine ⟨?_, ?_, ?_⟩
  · intro hs
    rcases hs with hs | hs <;>
      (simp only [handlerSubmitScore, scoreEntryValidate]
       split_ifs <;> first | rfl | omega)
  · intro hi
    rcases hi with hi | hi <;>
      (simp only [handlerSubmitScore, scoreEntryValidate]
       split_ifs <;> first | rfl | tauto)
  · intro hascii hlen
    have hgl : goLen (normalizeInitials ini) ≠ 3 := by
      rw [goLen_eq_length_of_ascii _ hascii]
      exact hlen
    simp only [handlerSubmitScore, scoreEntryValidate]
    split_ifs <;> first | rfl | tauto

/-- Witness for the amended C5 at concrete inputs: a negative score, a
2-character ASCII initials value, and a 4-character one. -/
theorem handlerSubmitScore_validation_witness :
    handlerSubmitScore [] "g01" "ABC" (-1) 0 = (.error .invalidInput, []) ∧
    handlerSubmitScore [] "g01" "AB" 5 0 = (.error .invalidInput, []) ∧
    handlerSubmitScore [] "g01" "ABCD" 5 0 = (.error .invalidInput, []) := by
  refine ⟨?_, ?_, ?_⟩
  · exact (handlerSubmitScore_validation [] "g01" "ABC" (-1) 0).1 (Or.inl (by decide))
  · exact (handlerSubmitScore_validation [] "g01" "AB" 5 0).2.1 (Or.inl (by decide))
  · exact (handlerSubmitScore_validation [] "g01" "ABCD" 5 0).2.2 (by decide) (by decide)

/-- Observation: the number of top players in a successful analysis. -/
def topPlayersCountOf : Option ((Except Err ScoreAnalysisResponse) × Store) → Option Nat
  | some (.ok r, _) => some r.topPlayers.length
  | _ => none

/-- C7, counterexample.  The claim says the limit is clamped into [1,10],
so a limit of 0 would yield at most 1 top player.  In the code a limit
of 0 (or any value outside [1,10]) is replaced by 10: from the store two
players' submissions leave behind, an analysis with limit 0 returns 2 top
players. -/
theorem getScoreAnalysis_limit_zero_gives_ten :
    topPlayersCountOf
      (getScoreAnalysis
        [(keyAll "g01", .history ⟨"g01", [⟨"AAA", 100, 0⟩, ⟨"BBB", 50, 1⟩], 1⟩),
         (keyHigh "g01",
          .highs ⟨"g01", [("AAA", ⟨"AAA", 100, 0⟩), ("BBB", ⟨"BBB", 50, 1⟩)], 1⟩),
         (keyBoard "g01", .board ⟨"g01", [⟨"AAA", 100, 0⟩, ⟨"BBB", 50, 1⟩]⟩)]
        "g01" 0 2) = some 2 ∧ 1 < 2 := by
  constructor
  · rfl
  · decide

theorem collectTopPlayers_length_le (g : String) (now : Nat) (l : List Entry) :
    ∀ st : Store, (collectTopPlayers g now l st).1.length ≤ l.length := by
  induction l with
  | nil =>
    intro st
    simp [collectTopPlayers]
  | cons e rest ih =>
    intro st
    cases h : getEnhancedPlayerStats st g e.initials false now with
    | mk res st1 =>
      cases res with
      | ok s =>
        simp only [collectTopPlayers, h, List.length_cons]
        exact Nat.succ_le_succ (ih st1)
      | error e1 =>
        simp only [collectTopPlayers, h, List.length_cons]
        exact Nat.le_succ_of_le (ih st1)

/-- C7, amended.  The handler clamps the query value into [1,10] with
default 5 (absent, unparseable or out-of-range values fall back to 5); the
service replaces a limit outside [1,10] by 10, and fills topPlayers from
the cached leaderboard entries up to that effective limit. -/
theorem scoreAnalysis_topPlayers_clamp :
    (∀ q, 1 ≤ parseTopPlayersLimit q ∧ parseTopPlayersLimit q ≤ 10) ∧
    parseTopPlayersLimit none = 5 ∧
    (∀ st g lim now r st1, getScoreAnalysis st g lim now = some (.ok r, st1) →
      r.topPlayers.length ≤ (if lim ≤ 0 ∨ 10 < lim then (10 : Int) else lim).toNat) := by
  refine ⟨?_, rfl, ?_⟩
  · intro q
    cases q with
    | none => exact ⟨by norm_num [parseTopPlayersLimit], by norm_num [parseTopPlayersLimit]⟩
    | some n =>
      simp only [parseTopPlayersLimit]
      split_ifs with h
      · omega
      · omega
  · intro st g lim now r st1 h
    unfold getScoreAnalysis at h
    cases hga : getAllScores st g with
    | error e =>
      rw [hga] at h
      simp at h
    | ok allScores =>
      rw [hga] at h
      simp only at h
      cases hemp : allScores.scores.isEmpty with
      | true =>
        rw [hemp] at h
        simp at h
      | false =>
        rw [hemp] at h
        simp only [Bool.false_eq_true, if_false] at h
        cases hlb : getLeaderboard st g now with
        | mk lbres st2 =>
          rw [hlb] at h
          cases lbres with
          | error e =>
            simp at h
          | ok lb =>
            simp only [Option.some.injEq, Prod.mk.injEq, Except.ok.injEq] at h
            rw [← h.1]
            exact le_trans (collectTopPlayers_length_le g now _ st2) (List.length_take_le _ _)

/-- Witness for the amended C7: the default limit, and the service bound
instantiated at a concrete one-player store with limit 0. -/
theorem scoreAnalysis_topPlayers_clamp_witness :
    (1 ≤ parseTopPlayersLimit (some 0) ∧ parseTopPlayersLimit (some 0) ≤ 10) ∧
    parseTopPlayersLimit none = 5 ∧
    (⟨"g07", 1, 1, 100, 100, 0,
      [⟨"AAA", 100, 1, 0, 100, 0, some 1,
        [⟨"first_score", "First Score", "Submit your first score", 0, "🎯"⟩], []⟩],
      [("0-999", 1)], [], 1⟩ : ScoreAnalysisResponse).topPlayers.length ≤
      (if (0 : Int) ≤ 0 ∨ 10 < (0 : Int) then (10 : Int) else 0).toNat := by
  refine ⟨scoreAnalysis_topPlayers_clamp.1 (some 0), scoreAnalysis_topPlayers_clamp.2.1, ?_⟩
  exact scoreAnalysis_topPlayers_clamp.2.2
    [(keyAll "g07", .history ⟨"g07", [⟨"AAA", 100, 0⟩], 0⟩),
     (keyBoard "g07", .board ⟨"g07", [⟨"AAA", 100, 0⟩]⟩)] "g07" 0 1
    ⟨"g07", 1, 1, 100, 100, 0,
      [⟨"AAA", 100, 1, 0, 100, 0, some 1,
        [⟨"first_score", "First Score", "Submit your first score", 0, "🎯"⟩], []⟩],
      [("0-999", 1)], [], 1⟩
    [(keyAll "g07", .history ⟨"g07", [⟨"AAA", 100, 0⟩], 0⟩),
     (keyBoard "g07", .board ⟨"g07", [⟨"AAA", 100, 0⟩]⟩)]
    rfl

theorem getRawLeaderboard_setS_all (st : Store) (g : String) (v : StoredVal) :
    getRawLeaderboard (setS st (keyAll g) v) g = getRawLeaderboard st g := by
  unfold getRawLeaderboard
  rw [lookupS_setS_ne _ _ _ _ (Ne.symm (keyAll_ne_keyBoard g))]

theorem getRawLeaderboard_setS_high (st : Store) (g : String) (v : StoredVal) :
    getRawLeaderboard (setS st (keyHigh g) v) g = getRawLeaderboard st g := by
  unfold getRawLeaderboard
  rw [lookupS_setS_ne _ _ _ _ (Ne.symm (keyHigh_ne_keyBoard g))]

/-- A successful regeneration writes exactly one record: the sorted,
truncated board under the game's leaderboard key. -/
theorem regen_ok_shape (st : Store) (g : String) (st1 : Store)
    (h : regenerateFilteredLeaderboard st g = .ok st1) :
    ∃ hs, getPlayerHighScores st g = .ok hs ∧
      st1 = setS st (keyBoard g)
        (.board ⟨g, (List.insertionSort leEntry (hs.highScores.map Prod.snd)).take 10⟩) ∧
      validBoard ⟨g, (List.insertionSort leEntry (hs.highScores.map Prod.snd)).take 10⟩ =
        true := by
  unfold regenerateFilteredLeaderboard saveLeaderboard at h
  cases hget : getPlayerHighScores st g with
  | error e =>
    rw [hget] at h
    simp at h
  | ok hs =>
    simp only [hget] at h
    split_ifs at h with hv
    exact ⟨hs, rfl, (Except.ok.inj h).symm, hv⟩

/-- C8.  MigrateExistingLeaderboard is a no-op whenever a history record
already decodes or no legacy leaderboard view decodes, and from any store
state a second run returns successfully without touching the store left
by the first run. -/
theorem migrateExistingLeaderboard_idempotent (st : Store) (g : String) (now now2 : Nat) :
    (isOkE (getAllScores st g) = true →
      migrateExistingLeaderboard st g now = (.ok (), st)) ∧
    (isOkE (getRawLeaderboard st g) = false →
      migrateExistingLeaderboard st g now = (.ok (), st)) ∧
    migrateExistingLeaderboard (migrateExistingLeaderboard st g now).2 g now2 =
      (.ok (), (migrateExistingLeaderboard st g now).2) := by
  refine ⟨?_, ?_, ?_⟩
  · intro h
    cases hraw : getRawLeaderboard st g with
    | error e => simp only [migrateExistingLeaderboard, hraw]
    | ok lb =>
      cases hga : getAllScores st g with
      | error e =>
        rw [hga] at h
        simp [isOkE] at h
      | ok r => simp only [migrateExistingLeaderboard, hraw, hga]
  · intro h
    cases hraw : getRawLeaderboard st g with
    | error e => simp only [migrateExistingLeaderboard, hraw]
    | ok lb =>
      rw [hraw] at h
      simp [isOkE] at h
  · cases hraw : getRawLeaderboard st g with
    | error e =>
      have h1 : migrateExistingLeaderboard st g now = (.ok (), st) := by
        simp only [migrateExistingLeaderboard, hraw]
      rw [h1]
      simp only [migrateExistingLeaderboard, hraw]
    | ok lb =>
      cases hga : getAllScores st g with
      | ok r =>
        have h1 : migrateExistingLeaderboard st g now = (.ok (), st) := by
          simp only [migrateExistingLeaderboard, hraw, hga]
        rw [h1]
        simp only [migrateExistingLeaderboard, hraw, hga]
      | error e =>
        have h1 : migrateExistingLeaderboard st g now =
            (match regenerateFilteredLeaderboard
                (setS (setS st (keyAll g) (.history ⟨g, lb.entries, now⟩)) (keyHigh g)
                  (.highs ⟨g, buildHighScores lb.entries, now⟩)) g with
             | .ok st3 => (.ok (), st3)
             | .error e2 => (.error e2,
                 setS (setS st (keyAll g) (.history ⟨g, lb.entries, now⟩)) (keyHigh g)
                   (.highs ⟨g, buildHighScores lb.entries, now⟩))) := by
          simp only [migrateExistingLeaderboard, hraw, hga]
        have fA : getAllScores
            (setS (setS st (keyAll g) (.history ⟨g, lb.entries, now⟩)) (keyHigh g)
              (.highs ⟨g, buildHighScores lb.entries, now⟩)) g =
            .ok ⟨g, lb.entries, now⟩ := by
          rw [getAllScores_setS_high]
          unfold getAllScores
          rw [lookupS_setS_self]
          rfl
        cases hreg : regenerateFilteredLeaderboard
            (setS (setS st (keyAll g) (.history ⟨g, lb.entries, now⟩)) (keyHigh g)
              (.highs ⟨g, buildHighScores lb.entries, now⟩)) g with
        | ok st3 =>
          rw [hreg] at h1
          rw [h1]
          obtain ⟨hs, hhs, hshape, hvb⟩ := regen_ok_shape _ _ _ hreg
          have fraw : isOkE (getRawLeaderboard st3 g) = true := by
            rw [hshape]
            unfold getRawLeaderboard
            rw [lookupS_setS_self]
            rfl
          have fall : getAllScores st3 g = .ok ⟨g, lb.entries, now⟩ := by
            rw [hshape, getAllScores_setS_board]
            exact fA
          cases hraw3 : getRawLeaderboard st3 g with
          | error e3 =>
            rw [hraw3] at fraw
            simp [isOkE] at fraw
          | ok lb3 => simp only [migrateExistingLeaderboard, hraw3, fall]
        | error e2 =>
          rw [hreg] at h1
          rw [h1]
          have fraw : getRawLeaderboard
              (setS (setS st (keyAll g) (.history ⟨g, lb.entries, now⟩)) (keyHigh g)
                (.highs ⟨g, buildHighScores lb.entries, now⟩)) g = .ok lb := by
            rw [getRawLeaderboard_setS_high, getRawLeaderboard_setS_all]
            exact hraw
          simp only [migrateExistingLeaderboard, fraw, fA]

/-- Witness for C8 at a concrete store holding only a history record:
both no-op hypotheses are dischargeable there. -/
theorem migrateExistingLeaderboard_idempotent_witness :
    migrateExistingLeaderboard [(keyAll "g03", .history ⟨"g03", [], 0⟩)] "g03" 4 =
      (.ok (), [(keyAll "g03", .history ⟨"g03", [], 0⟩)]) ∧
    migrateExistingLeaderboard [(keyAll "g03", .history ⟨"g03", [], 0⟩)] "g03" 4 =
      (.ok (), [(keyAll "g03", .history ⟨"g03", [], 0⟩)]) := by
  constructor
  · exact (migrateExistingLeaderboard_idempotent
      [(keyAll "g03", .history ⟨"g03", [], 0⟩)] "g03" 4 5).1 (by decide)
  · exact (migrateExistingLeaderboard_idempotent
      [(keyAll "g03", .history ⟨"g03", [], 0⟩)] "g03" 4 5).2.1 (by decide)

/-- C3.  Every leaderboard written by regeneration is sorted: any earlier
entry either has the strictly larger score or, on an exact score tie, the
more recent (or equal) timestamp.  In particular, submitting
(gameY, AAA, 1000) and then (gameY, BBB, 1000) from an empty store orders
BBB before AAA. -/
theorem regen_sorted_tie_break :
    (∀ st g st1 b, regenerateFilteredLeaderboard st g = .ok st1 →
      boardEntriesOf st1 g = some b → List.Sorted leEntry b) ∧
    boardEntriesOf
        (submitScore (submitScore [] "gameY" "AAA" 1000 0).2 "gameY" "BBB" 1000 1).2
        "gameY" =
      some [⟨"BBB", 1000, 1⟩, ⟨"AAA", 1000, 0⟩] := by
  constructor
  · intro st g st1 b hreg hb
    obtain ⟨hs, hget, hshape, hvb⟩ := regen_ok_shape st g st1 hreg
    rw [hshape] at hb
    unfold boardEntriesOf at hb
    rw [lookupS_setS_self] at hb
    simp [decodeBoard] at hb
    subst hb
    exact List.Pairwise.sublist (List.take_sublist 10 _)
      (List.sorted_insertionSort leEntry (hs.highScores.map Prod.snd))
  · rfl

/-- Witness for C3 at a concrete two-player index with an exact tie. -/
theorem regen_sorted_tie_break_witness :
    List.Sorted leEntry [⟨"BBB", 1000, 1⟩, ⟨"AAA", 1000, 0⟩] :=
  regen_sorted_tie_break.1
    [(keyHigh "g04",
      .highs ⟨"g04", [("AAA", ⟨"AAA", 1000, 0⟩), ("BBB", ⟨"BBB", 1000, 1⟩)], 1⟩)]
    "g04"
    [(keyHigh "g04",
      .highs ⟨"g04", [("AAA", ⟨"AAA", 1000, 0⟩), ("BBB", ⟨"BBB", 1000, 1⟩)], 1⟩),
     (keyBoard "g04", .board ⟨"g04", [⟨"BBB", 1000, 1⟩, ⟨"AAA", 1000, 0⟩]⟩)]
    [⟨"BBB", 1000, 1⟩, ⟨"AAA", 1000, 0⟩]
    rfl rfl

/-- A high-score index is coherent when its keys are distinct and every
stored entry carries its own key as initials. -/
def coherentHighs (m : List (String × Entry)) : Prop :=
  (m.map Prod.fst).Nodup ∧ ∀ p ∈ m, (Prod.snd p).initials = Prod.fst p

instance (m : List (String × Entry)) : Decidable (coherentHighs m) := by
  unfold coherentHighs
  infer_instance

theorem mem_keys_insertA (m : List (String × Entry)) (k k1 : String) (v : Entry) :
    k1 ∈ (insertA m k v).map Prod.fst ↔ k1 ∈ m.map Prod.fst ∨ k1 = k := by
  induction m with
  | nil => simp [insertA]
  | cons p rest ih =>
    by_cases h : k = p.1
    · subst h
      simp [insertA]
      tauto
    · simp [insertA, h, ih]
      tauto

theorem mem_insertA (m : List (String × Entry)) (k : String) (v : Entry)
    (p : String × Entry) (hp : p ∈ insertA m k v) : p = (k, v) ∨ p ∈ m := by
  induction m with
  | nil =>
    simp [insertA] at hp
    exact Or.inl hp
  | cons q rest ih =>
    by_cases h : k = q.1
    · subst h
      simp [insertA] at hp
      rcases hp with hp | hp
      · exact Or.inl hp
      · exact Or.inr (by simp [hp])
    · simp [insertA, h] at hp
      rcases hp with hp | hp
      · exact Or.inr (by simp [hp])
      · rcases ih hp with h1 | h1
        · exact Or.inl h1
        · exact Or.inr (by simp [h1])

theorem nodup_keys_insertA (m : List (String × Entry)) (k : String) (v : Entry)
    (h : (m.map Prod.fst).Nodup) : ((insertA m k v).map Prod.fst).Nodup := by
  induction m with
  | nil => simp [insertA]
  | cons p rest ih =>
    by_cases hk : k = p.1
    · subst hk
      simpa [insertA] using h
    · simp only [List.map_cons, List.nodup_cons] at h
      simp only [insertA, if_neg hk, List.map_cons, List.nodup_cons]
      refine ⟨?_, ih h.2⟩
      rw [mem_keys_insertA]
      rintro (h1 | h1)
      · exact h.1 h1
      · exact hk (by rw [h1])

theorem coherent_insertA (m : List (String × Entry)) (k : String) (v : Entry)
    (hm : coherentHighs m) (hv : v.initials = k) : coherentHighs (insertA m k v) := by
  refine ⟨nodup_keys_insertA m k v hm.1, ?_⟩
  intro p hp
  rcases mem_insertA m k v p hp with h | h
  · rw [h]
    exact hv
  · exact hm.2 p h

theorem highEntryOf_setS_all (st : Store) (g ini : String) (v : StoredVal) :
    highEntryOf (setS st (keyAll g) v) g ini = highEntryOf st g ini := by
  unfold highEntryOf
  rw [getPlayerHighScores_setS_all]

theorem highEntryOf_setS_board (st : Store) (g ini : String) (v : StoredVal) :
    highEntryOf (setS st (keyBoard g) v) g ini = highEntryOf st g ini := by
  unfold highEntryOf
  rw [getPlayerHighScores_setS_board]

/-- The index update never loses a player and never lowers a stored
score. -/
theorem update_preserves (st : Store) (g ini : String) (sc : Int) (now : Nat)
    (ini2 : String) (e2 : Entry) (h : highEntryOf st g ini2 = some e2) :
    ∃ e3, highEntryOf (updatePlayerHighScore st g ini sc now) g ini2 = some e3 ∧
      e2.score ≤ e3.score := by
  cases hget : getPlayerHighScores st g with
  | error e =>
    unfold highEntryOf at h
    rw [hget] at h
    cases h
  | ok hs =>
    have hh : highEntryOf st g ini2 = lookupA hs.highScores ini2 := by
      unfold highEntryOf
      rw [hget]
    rw [hh] at h
    by_cases hini : ini2 = ini
    · subst hini
      simp only [updatePlayerHighScore, hget, h]
      split_ifs with hgt
      · refine ⟨⟨ini2, sc, now⟩, ?_, by change e2.score ≤ sc; omega⟩
        unfold highEntryOf getPlayerHighScores
        rw [lookupS_setS_self]
        simp [decodeHighs, lookupA_insertA_self]
      · exact ⟨e2, by rw [hh, h], le_refl _⟩
    · cases hfind : lookupA hs.highScores ini with
      | some e =>
        simp only [updatePlayerHighScore, hget, hfind]
        split_ifs with hgt
        · refine ⟨e2, ?_, le_refl _⟩
          unfold highEntryOf getPlayerHighScores
          rw [lookupS_setS_self]
          simp only [decodeHighs]
          rw [lookupA_insertA_ne _ _ _ _ hini]
          exact h
        · exact ⟨e2, by rw [hh, h], le_refl _⟩
      | none =>
        simp only [updatePlayerHighScore, hget, hfind]
        refine ⟨e2, ?_, le_refl _⟩
        unfold highEntryOf getPlayerHighScores
        rw [lookupS_setS_self]
        simp only [decodeHighs]
        rw [lookupA_insertA_ne _ _ _ _ hini]
        exact h

/-- The index update leaves the submitting player present with at least
the submitted score. -/
theorem update_installs (st : Store) (g ini : String) (sc : Int) (now : Nat) :
    ∃ e3, highEntryOf (updatePlayerHighScore st g ini sc now) g ini = some e3 ∧
      sc ≤ e3.score := by
  cases hget : getPlayerHighScores st g with
  | error e =>
    simp only [updatePlayerHighScore, hget, lookupA]
    refine ⟨⟨ini, sc, now⟩, ?_, le_refl _⟩
    unfold highEntryOf getPlayerHighScores
    rw [lookupS_setS_self]
    simp [decodeHighs, lookupA_insertA_self]
  | ok hs =>
    cases hfind : lookupA hs.highScores ini with
    | some e =>
      simp only [updatePlayerHighScore, hget, hfind]
      split_ifs with hgt
      · refine ⟨⟨ini, sc, now⟩, ?_, le_refl _⟩
        unfold highEntryOf getPlayerHighScores
        rw [lookupS_setS_self]
        simp [decodeHighs, lookupA_insertA_self]
      · refine ⟨e, ?_, by omega⟩
        unfold highEntryOf
        rw [hget]
        exact hfind
    | none =>
      simp only [updatePlayerHighScore, hget, hfind]
      refine ⟨⟨ini, sc, now⟩, ?_, le_refl _⟩
      unfold highEntryOf getPlayerHighScores
      rw [lookupS_setS_self]
      simp [decodeHighs, lookupA_insertA_self]

/-- A successful submission is exactly a successful regeneration after the
history append and the index update. -/
theorem submit_ok_shape (st : Store) (g initials0 : String) (sc : Int) (now : Nat)
    (u : Unit) (st1 : Store) (h : submitScore st g initials0 sc now = (.ok u, st1)) :
    regenerateFilteredLeaderboard
      (updatePlayerHighScore (addToAllScores st g (normalizeInitials initials0) sc now) g
        (normalizeInitials initials0) sc now) g = .ok st1 := by
  simp only [submitScore] at h
  split_ifs at h with hchk
  · simp at h
  · cases hreg : regenerateFilteredLeaderboard
        (updatePlayerHighScore (addToAllScores st g (normalizeInitials initials0) sc now) g
          (normalizeInitials initials0) sc now) g with
    | ok st3 =>
      rw [hreg] at h
      simp only [Prod.mk.injEq] at h
      rw [h.2]
    | error e =>
      rw [hreg] at h
      simp at h

theorem addToAllScores_as_setS (st : Store) (g ini : String) (sc : Int) (now : Nat) :
    ∃ v, addToAllScores st g ini sc now = setS st (keyAll g) v := by
  unfold addToAllScores
  exact ⟨_, rfl⟩

/-- C6.  (i) A successful submission keeps every player in the high-score
index with a score at least as large and leaves the submitter present
with at least the submitted score; (ii) the index update preserves
coherence (distinct keys, entries keyed by their own initials), so every
index the service writes is coherent; (iii) regeneration from a coherent
index of n players persists a board of min(n, 10) entries with pairwise
distinct initials in which every omitted player's high score is at most
every displayed score. -/
theorem leaderboard_top_ten :
    (∀ st g initials0 sc now u st1,
        submitScore st g initials0 sc now = (.ok u, st1) →
        (∀ ini2 e2, highEntryOf st g ini2 = some e2 →
           ∃ e3, highEntryOf st1 g ini2 = some e3 ∧ e2.score ≤ e3.score) ∧
        (∃ e3, highEntryOf st1 g (normalizeInitials initials0) = some e3 ∧ sc ≤ e3.score)) ∧
    (∀ st g ini sc now hs1,
        (∀ hs, getPlayerHighScores st g = .ok hs → coherentHighs hs.highScores) →
        getPlayerHighScores (updatePlayerHighScore st g ini sc now) g = .ok hs1 →
        coherentHighs hs1.highScores) ∧
    (∀ st g hs st1, getPlayerHighScores st g = .ok hs → coherentHighs hs.highScores →
        regenerateFilteredLeaderboard st g = .ok st1 →
        ∀ b, boardEntriesOf st1 g = some b →
          b.length = min hs.highScores.length 10 ∧
          (b.map Entry.initials).Nodup ∧
          (∀ x ∈ b, ∀ p ∈ hs.highScores, Prod.snd p ∉ b → (Prod.snd p).score ≤ x.score)) := by
  refine ⟨?_, ?_, ?_⟩
  · intro st g initials0 sc now u st1 hsub
    have hreg := submit_ok_shape st g initials0 sc now u st1 hsub
    obtain ⟨hs2, hget2, hshape, hvb⟩ := regen_ok_shape _ _ _ hreg
    obtain ⟨vA, hA⟩ := addToAllScores_as_setS st g (normalizeInitials initials0) sc now
    constructor
    · intro ini2 e2 h2
      have h2a : highEntryOf (addToAllScores st g (normalizeInitials initials0) sc now) g
          ini2 = some e2 := by
        rw [hA, highEntryOf_setS_all]
        exact h2
      obtain ⟨e3, he3, hle⟩ := update_preserves _ g (normalizeInitials initials0) sc now
        ini2 e2 h2a
      refine ⟨e3, ?_, hle⟩
      rw [hshape, highEntryOf_setS_board]
      exact he3
    · obtain ⟨e3, he3, hle⟩ := update_installs
        (addToAllScores st g (normalizeInitials initials0) sc now) g
        (normalizeInitials initials0) sc now
      refine ⟨e3, ?_, hle⟩
      rw [hshape, highEntryOf_setS_board]
      exact he3
  · intro st g ini sc now hs1 hpre hget1
    cases hget : getPlayerHighScores st g with
    | ok hs =>
      have hcoh := hpre hs hget
      cases hfind : lookupA hs.highScores ini with
      | some e =>
        by_cases hgt : sc > e.score
        · have hw : getPlayerHighScores (updatePlayerHighScore st g ini sc now) g =
              .ok ⟨hs.gameID, insertA hs.highScores ini ⟨ini, sc, now⟩, now⟩ := by
            simp only [updatePlayerHighScore, hget, hfind, if_pos hgt]
            unfold getPlayerHighScores
            rw [lookupS_setS_self]
            rfl
          rw [hw] at hget1
          cases Except.ok.inj hget1
          exact coherent_insertA _ _ _ hcoh rfl
        · have hupd : updatePlayerHighScore st g ini sc now = st := by
            simp only [updatePlayerHighScore, hget, hfind, if_neg hgt]
          rw [hupd, hget] at hget1
          cases Except.ok.inj hget1
          exact hcoh
      | none =>
        have hw : getPlayerHighScores (updatePlayerHighScore st g ini sc now) g =
            .ok ⟨hs.gameID, insertA hs.highScores ini ⟨ini, sc, now⟩, now⟩ := by
          simp only [updatePlayerHighScore, hget, hfind]
          unfold getPlayerHighScores
          rw [lookupS_setS_self]
          rfl
        rw [hw] at hget1
        cases Except.ok.inj hget1
        exact coherent_insertA _ _ _ hcoh rfl
    | error e =>
      have hw : getPlayerHighScores (updatePlayerHighScore st g ini sc now) g =
          .ok ⟨g, insertA [] ini ⟨ini, sc, now⟩, now⟩ := by
        simp only [updatePlayerHighScore, hget, lookupA]
        unfold getPlayerHighScores
        rw [lookupS_setS_self]
        rfl
      rw [hw] at hget1
      cases Except.ok.inj hget1
      exact coherent_insertA [] ini _ ⟨by simp, by simp⟩ rfl
  · intro st g hs st1 hget hcoh hreg b hb
    obtain ⟨hs2, hget2, hshape, hvb⟩ := regen_ok_shape _ _ _ hreg
    rw [hget] at hget2
    cases Except.ok.inj hget2
    rw [hshape] at hb
    unfold boardEntriesOf at hb
    rw [lookupS_setS_self] at hb
    simp [decodeBoard] at hb
    subst hb
    have hperm : (List.insertionSort leEntry (hs.highScores.map Prod.snd)).Perm
        (hs.highScores.map Prod.snd) := List.perm_insertionSort leEntry _
    refine ⟨?_, ?_, ?_⟩
    · rw [List.length_take, hperm.length_eq, List.length_map]
      exact Nat.min_comm _ _
    · have hkeys : (hs.highScores.map Prod.snd).map Entry.initials =
          hs.highScores.map Prod.fst := by
        rw [List.map_map]
        exact List.map_congr_left (fun p hp => hcoh.2 p hp)
      have h1 : ((List.insertionSort leEntry (hs.highScores.map Prod.snd)).map
          Entry.initials).Nodup := by
        rw [(hperm.map Entry.initials).nodup_iff, hkeys]
        exact hcoh.1
      rw [List.map_take]
      exact List.Nodup.sublist (List.take_sublist _ _) h1
    · intro x hx p hp hnot
      have hmem : Prod.snd p ∈ List.insertionSort leEntry (hs.highScores.map Prod.snd) := by
        rw [hperm.mem_iff]
        exact List.mem_map_of_mem Prod.snd hp
      have hsplit : List.insertionSort leEntry (hs.highScores.map Prod.snd) =
          List.take 10 (List.insertionSort leEntry (hs.highScores.map Prod.snd)) ++
            List.drop 10 (List.insertionSort leEntry (hs.highScores.map Prod.snd)) :=
        (List.take_append_drop 10 _).symm
      rw [hsplit] at hmem
      have hdrop : Prod.snd p ∈
          List.drop 10 (List.insertionSort leEntry (hs.highScores.map Prod.snd)) := by
        rcases List.mem_append.mp hmem with h | h
        · exact absurd h hnot
        · exact h
      have hsortedP : List.Pairwise leEntry
          (List.insertionSort leEntry (hs.highScores.map Prod.snd)) :=
        List.sorted_insertionSort leEntry _
      rw [hsplit] at hsortedP
      have hle := (List.pairwise_append.mp hsortedP).2.2 x hx (Prod.snd p) hdrop
      rcases hle with h | ⟨h, ht⟩
      · omega
      · omega

/-- Witness for C6: a fresh submission installs the player; the concrete
updated index is coherent; a concrete coherent two-player index
regenerates a board of min(2, 10) entries. -/
theorem leaderboard_top_ten_witness :
    (∃ e3, highEntryOf
        [(keyAll "g05", .history ⟨"g05", [⟨"ABC", 42, 0⟩], 0⟩),
         (keyHigh "g05", .highs ⟨"g05", [("ABC", ⟨"ABC", 42, 0⟩)], 0⟩),
         (keyBoard "g05", .board ⟨"g05", [⟨"ABC", 42, 0⟩]⟩)] "g05"
        (normalizeInitials "abc") = some e3 ∧ 42 ≤ e3.score) ∧
    coherentHighs
      (⟨"g05", [("ABC", ⟨"ABC", 5, 0⟩)], 0⟩ : PlayerHighScores).highScores ∧
    (List.take 10 (List.insertionSort leEntry
        ([("AAA", ⟨"AAA", 7, 0⟩), ("BBB", ⟨"BBB", 9, 1⟩)].map Prod.snd))).length =
      min ([("AAA", (⟨"AAA", 7, 0⟩ : Entry)), ("BBB", ⟨"BBB", 9, 1⟩)].length) 10 := by
  refine ⟨?_, ?_, ?_⟩
  · exact (leaderboard_top_ten.1 [] "g05" "abc" 42 0 ()
      [(keyAll "g05", .history ⟨"g05", [⟨"ABC", 42, 0⟩], 0⟩),
       (keyHigh "g05", .highs ⟨"g05", [("ABC", ⟨"ABC", 42, 0⟩)], 0⟩),
       (keyBoard "g05", .board ⟨"g05", [⟨"ABC", 42, 0⟩]⟩)] rfl).2
  · exact leaderboard_top_ten.2.1 [] "g05" "ABC" 5 0 ⟨"g05", [("ABC", ⟨"ABC", 5, 0⟩)], 0⟩
      (fun hs h => by simp [getPlayerHighScores, lookupS] at h) rfl
  · exact (leaderboard_top_ten.2.2
      [(keyHigh "g06", .highs ⟨"g06", [("AAA", ⟨"AAA", 7, 0⟩), ("BBB", ⟨"BBB", 9, 1⟩)], 1⟩)]
      "g06" ⟨"g06", [("AAA", ⟨"AAA", 7, 0⟩), ("BBB", ⟨"BBB", 9, 1⟩)], 1⟩
      [(keyHigh "g06", .highs ⟨"g06", [("AAA", ⟨"AAA", 7, 0⟩), ("BBB", ⟨"BBB", 9, 1⟩)], 1⟩),
       (keyBoard "g06", .board ⟨"g06", [⟨"BBB", 9, 1⟩, ⟨"AAA", 7, 0⟩]⟩)]
      rfl (by decide) rfl
      [⟨"BBB", 9, 1⟩, ⟨"AAA", 7, 0⟩] rfl).1

/-- The state maintained by a single player's submissions: the index holds
exactly that player with one valid entry, and the cached board shows
exactly that entry. -/
def singleInv (g ni : String) (st : Store) (e : Entry) : Prop :=
  (∃ u, getPlayerHighScores st g = .ok ⟨g, [(ni, e)], u⟩) ∧
  boardEntriesOf st g = some [e] ∧
  e.initials = ni ∧
  validBoard ⟨g, [e]⟩ = true

theorem regen_single (st : Store) (g ni : String) (e : Entry) (u : Nat) (st1 : Store)
    (hhs : getPlayerHighScores st g = .ok ⟨g, [(ni, e)], u⟩)
    (hreg : regenerateFilteredLeaderboard st g = .ok st1)
    (hini : e.initials = ni) : singleInv g ni st1 e := by
  obtain ⟨hs2, hget2, hshape, hvb⟩ := regen_ok_shape _ _ _ hreg
  rw [hhs] at hget2
  cases Except.ok.inj hget2
  have hsort : (List.insertionSort leEntry
      ((⟨g, [(ni, e)], u⟩ : PlayerHighScores).highScores.map Prod.snd)).take 10 = [e] := by
    simp [List.insertionSort, List.orderedInsert]
  rw [hsort] at hshape hvb
  refine ⟨⟨u, ?_⟩, ?_, hini, hvb⟩
  · rw [hshape, getPlayerHighScores_setS_board]
    exact hhs
  · rw [hshape]
    unfold boardEntriesOf
    rw [lookupS_setS_self]
    simp [decodeBoard]

theorem submit_step (g initials0 : String) (st : Store) (e : Entry) (sc : Int) (t : Nat)
    (hinv : singleInv g (normalizeInitials initials0) st e) (st1 : Store)
    (hok : submitScore st g initials0 sc t = (.ok (), st1)) :
    ∃ e1, singleInv g (normalizeInitials initials0) st1 e1 ∧
      e1.score = max e.score sc := by
  have hreg := submit_ok_shape st g initials0 sc t () st1 hok
  obtain ⟨u, hhs⟩ := hinv.1
  obtain ⟨vA, hA⟩ := addToAllScores_as_setS st g (normalizeInitials initials0) sc t
  have hhsA : getPlayerHighScores (addToAllScores st g (normalizeInitials initials0) sc t) g =
      .ok ⟨g, [(normalizeInitials initials0, e)], u⟩ := by
    rw [hA, getPlayerHighScores_setS_all]
    exact hhs
  have hlook : lookupA [(normalizeInitials initials0, e)] (normalizeInitials initials0) =
      some e := by
    simp [lookupA]
  by_cases hgt : sc > e.score
  · have hupd : updatePlayerHighScore (addToAllScores st g (normalizeInitials initials0) sc t)
        g (normalizeInitials initials0) sc t =
        setS (addToAllScores st g (normalizeInitials initials0) sc t) (keyHigh g)
          (.highs ⟨g, [(normalizeInitials initials0,
            ⟨normalizeInitials initials0, sc, t⟩)], t⟩) := by
      simp only [updatePlayerHighScore, hhsA, hlook, if_pos hgt]
      simp [insertA]
    rw [hupd] at hreg
    have hhsU : getPlayerHighScores
        (setS (addToAllScores st g (normalizeInitials initials0) sc t) (keyHigh g)
          (.highs ⟨g, [(normalizeInitials initials0,
            ⟨normalizeInitials initials0, sc, t⟩)], t⟩)) g =
        .ok ⟨g, [(normalizeInitials initials0,
          ⟨normalizeInitials initials0, sc, t⟩)], t⟩ := by
      unfold getPlayerHighScores
      rw [lookupS_setS_self]
      rfl
    refine ⟨⟨normalizeInitials initials0, sc, t⟩,
      regen_single _ g _ _ t st1 hhsU hreg rfl, ?_⟩
    change sc = max e.score sc
    omega
  · have hupd : updatePlayerHighScore (addToAllScores st g (normalizeInitials initials0) sc t)
        g (normalizeInitials initials0) sc t =
        addToAllScores st g (normalizeInitials initials0) sc t := by
      simp only [updatePlayerHighScore, hhsA, hlook, if_neg hgt]
    rw [hupd] at hreg
    refine ⟨e, regen_single _ g _ _ u st1 hhsA hreg hinv.2.2.1, ?_⟩
    omega

theorem submit_first (g initials0 : String) (sc : Int) (st1 : Store)
    (hok : submitScore [] g initials0 sc 0 = (.ok (), st1)) :
    singleInv g (normalizeInitials initials0) st1 ⟨normalizeInitials initials0, sc, 0⟩ := by
  have hreg := submit_ok_shape [] g initials0 sc 0 () st1 hok
  obtain ⟨vA, hA⟩ := addToAllScores_as_setS [] g (normalizeInitials initials0) sc 0
  have hhsA : getPlayerHighScores (addToAllScores [] g (normalizeInitials initials0) sc 0) g =
      .error .notFound := by
    rw [hA, getPlayerHighScores_setS_all]
    rfl
  have hupd : updatePlayerHighScore (addToAllScores [] g (normalizeInitials initials0) sc 0)
      g (normalizeInitials initials0) sc 0 =
      setS (addToAllScores [] g (normalizeInitials initials0) sc 0) (keyHigh g)
        (.highs ⟨g, [(normalizeInitials initials0,
          ⟨normalizeInitials initials0, sc, 0⟩)], 0⟩) := by
    simp only [updatePlayerHighScore, hhsA, lookupA]
    simp [insertA]
  rw [hupd] at hreg
  have hhsU : getPlayerHighScores
      (setS (addToAllScores [] g (normalizeInitials initials0) sc 0) (keyHigh g)
        (.highs ⟨g, [(normalizeInitials initials0,
          ⟨normalizeInitials initials0, sc, 0⟩)], 0⟩)) g =
      .ok ⟨g, [(normalizeInitials initials0,
        ⟨normalizeInitials initials0, sc, 0⟩)], 0⟩ := by
    unfold getPlayerHighScores
    rw [lookupS_setS_self]
    rfl
  exact regen_single _ g _ _ 0 st1 hhsU hreg rfl

theorem runSubmitsAux_single (g initials0 : String) (scores : List Int) :
    ∀ t st e st1, singleInv g (normalizeInitials initials0) st e →
      runSubmitsAux g initials0 scores t st = (.ok (), st1) →
      ∃ e1, singleInv g (normalizeInitials initials0) st1 e1 ∧
        e1.score = scores.foldl max e.score := by
  induction scores with
  | nil =>
    intro t st e st1 hinv hrun
    simp only [runSubmitsAux, Prod.mk.injEq] at hrun
    rw [← hrun.2]
    exact ⟨e, hinv, by simp⟩
  | cons s rest ih =>
    intro t st e st1 hinv hrun
    cases hsub : submitScore st g initials0 s t with
    | mk res stm =>
      cases res with
      | ok uu =>
        simp only [runSubmitsAux, hsub] at hrun
        obtain ⟨e1, hinv1, hsc1⟩ := submit_step g initials0 st e s t hinv stm (by rw [hsub])
        obtain ⟨e2, hinv2, hsc2⟩ := ih (t + 1) stm e1 st1 hinv1 hrun
        refine ⟨e2, hinv2, ?_⟩
        rw [hsc2, hsc1]
        rfl
      | error err =>
        simp only [runSubmitsAux, hsub] at hrun
        simp at hrun

theorem foldl_max_le (l : List Int) :
    ∀ a : Int, a ≤ l.foldl max a ∧ ∀ x ∈ l, x ≤ l.foldl max a := by
  induction l with
  | nil => simp
  | cons y l ih =>
    intro a
    have hstep : (y :: l).foldl max a = l.foldl max (max a y) := rfl
    constructor
    · rw [hstep]
      exact le_trans (le_max_left a y) (ih (max a y)).1
    · intro x hx
      rw [hstep]
      rcases List.mem_cons.mp hx with h | h
      · rw [h]
        exact le_trans (le_max_right a y) (ih (max a y)).1
      · exact (ih (max a y)).2 x h

theorem foldl_max_mem (l : List Int) :
    ∀ a : Int, l.foldl max a = a ∨ l.foldl max a ∈ l := by
  induction l with
  | nil => simp
  | cons y l ih =>
    intro a
    have hstep : (y :: l).foldl max a = l.foldl max (max a y) := rfl
    rcases ih (max a y) with h | h
    · rcases max_choice a y with hm | hm
      · left
        rw [hstep, h, hm]
      · right
        rw [hstep, h, hm]
        simp
    · right
      rw [hstep]
      exact List.mem_cons_of_mem y h

/-- C1.  Any non-empty sequence of successful submissions for one player
from the empty store leaves a persisted leaderboard containing exactly one
entry, carrying the player's normalized initials, whose score is the
maximum of all submitted scores. -/
theorem submit_single_player_max (g initials0 : String) (s0 : Int) (rest : List Int)
    (st1 : Store) (hrun : runSubmits g initials0 (s0 :: rest) = (.ok (), st1)) :
    (boardEntriesOf st1 g).map (List.map Entry.initials) =
        some [normalizeInitials initials0] ∧
    (boardEntriesOf st1 g).map (List.map Entry.score) = some [rest.foldl max s0] ∧
    (∀ s ∈ s0 :: rest, s ≤ rest.foldl max s0) ∧
    rest.foldl max s0 ∈ s0 :: rest := by
  unfold runSubmits at hrun
  cases hsub : submitScore [] g initials0 s0 0 with
  | mk res stm =>
    cases res with
    | error err =>
      simp only [runSubmitsAux, hsub] at hrun
      simp at hrun
    | ok uu =>
      simp only [runSubmitsAux, hsub] at hrun
      have hfirst := submit_first g initials0 s0 stm (by rw [hsub])
      obtain ⟨e1, hinv1, hsc⟩ := runSubmitsAux_single g initials0 rest 1 stm
        ⟨normalizeInitials initials0, s0, 0⟩ st1 hfirst hrun
      obtain ⟨⟨u, hhs⟩, hboard, hini, hval⟩ := hinv1
      have hscore : e1.score = rest.foldl max s0 := hsc
      refine ⟨?_, ?_, ?_, ?_⟩
      · rw [hboard]
        simp [hini]
      · rw [hboard]
        simp [hscore]
      · intro s hsmem
        rcases List.mem_cons.mp hsmem with h | h
        · rw [h]
          exact (foldl_max_le rest s0).1
        · exact (foldl_max_le rest s0).2 s h
      · rcases foldl_max_mem rest s0 with h | h
        · rw [h]
          exact List.mem_cons_self _ _
        · exact List.mem_cons_of_mem s0 h

/-- Witness for C1: three submissions 3, 10, 5 leave one entry with
score 10. -/
theorem submit_single_player_max_witness :
    (boardEntriesOf
        [(keyAll "g08",
          .history ⟨"g08", [⟨"ABC", 3, 0⟩, ⟨"ABC", 10, 1⟩, ⟨"ABC", 5, 2⟩], 2⟩),
         (keyHigh "g08", .highs ⟨"g08", [("ABC", ⟨"ABC", 10, 1⟩)], 1⟩),
         (keyBoard "g08", .board ⟨"g08", [⟨"ABC", 10, 1⟩]⟩)] "g08").map
        (List.map Entry.initials) = some [normalizeInitials "abc"] ∧
    (boardEntriesOf
        [(keyAll "g08",
          .history ⟨"g08", [⟨"ABC", 3, 0⟩, ⟨"ABC", 10, 1⟩, ⟨"ABC", 5, 2⟩], 2⟩),
         (keyHigh "g08", .highs ⟨"g08", [("ABC", ⟨"ABC", 10, 1⟩)], 1⟩),
         (keyBoard "g08", .board ⟨"g08", [⟨"ABC", 10, 1⟩]⟩)] "g08").map
        (List.map Entry.score) = some [[10, 5].foldl max 3] ∧
    [10, 5].foldl max 3 ∈ (3 : Int) :: [10, 5] := by
  have h := submit_single_player_max "g08" "abc" 3 [10, 5]
    [(keyAll "g08",
      .history ⟨"g08", [⟨"ABC", 3, 0⟩, ⟨"ABC", 10, 1⟩, ⟨"ABC", 5, 2⟩], 2⟩),
     (keyHigh "g08", .highs ⟨"g08", [("ABC", ⟨"ABC", 10, 1⟩)], 1⟩),
     (keyBoard "g08", .board ⟨"g08", [⟨"ABC", 10, 1⟩]⟩)] rfl
  exact ⟨h.1, h.2.1, h.2.2.2⟩

theorem filterMap_milestone_id (hs : Int) (sorted : List Entry) (ms : List Milestone)
    (a : Achievement)
    (ha : a ∈ ms.filterMap (fun mm =>
      if hs ≥ mm.score then some (milestoneAch sorted mm) else none)) :
    ∃ y ∈ ms, a.id = y.id := by
  rw [List.mem_filterMap] at ha
  obtain ⟨y, hy, hay⟩ := ha
  split_ifs at hay with h
  refine ⟨y, hy, ?_⟩
  rw [← Option.some.inj hay]
  rfl

theorem find_milestone_achs (hs : Int) (sorted : List Entry) :
    ∀ (ms : List Milestone) (m : Milestone), m ∈ ms →
    ms.Pairwise (fun x y => x.id ≠ y.id) →
    (ms.filterMap (fun mm =>
      if hs ≥ mm.score then some (milestoneAch sorted mm) else none)).find?
        (fun a => a.id = m.id) =
    if hs ≥ m.score then some (milestoneAch sorted m) else none := by
  intro ms
  induction ms with
  | nil =>
    intro m hm
    cases hm
  | cons mm rest ih =>
    intro m hm hdist
    have hdist1 := List.pairwise_cons.mp hdist
    rcases List.mem_cons.mp hm with heq | hm1
    · subst heq
      by_cases h : hs ≥ m.score
      · rw [List.filterMap_cons_some (by rw [if_pos h]), if_pos h]
        exact List.find?_cons_of_pos _ (by simp [milestoneAch])
      · rw [List.filterMap_cons_none (by rw [if_neg h]), if_neg h]
        rw [List.find?_eq_none]
        intro a ha hpa
        obtain ⟨y, hy, hid⟩ := filterMap_milestone_id hs sorted rest a ha
        rw [decide_eq_true_eq] at hpa
        exact hdist1.1 y hy (by rw [← hid, ← hpa])
    · have hne : mm.id ≠ m.id := hdist1.1 m hm1
      by_cases h : hs ≥ mm.score
      · rw [List.filterMap_cons_some (by rw [if_pos h])]
        rw [List.find?_cons_of_neg _ (by simpa [milestoneAch] using hne)]
        exact ih m hm1 hdist1.2
      · rw [List.filterMap_cons_none (by rw [if_neg h])]
        exact ih m hm1 hdist1.2

theorem runningHigh_attained (l : List Entry) :
    runningHigh l = 0 ∨ ∃ e ∈ l, e.score = runningHigh l := by
  have key : ∀ (l2 : List Entry) (a : Int),
      l2.foldl (fun h e => if e.score > h then e.score else h) a = a ∨
      ∃ e ∈ l2, e.score = l2.foldl (fun h e => if e.score > h then e.score else h) a := by
    intro l2
    induction l2 with
    | nil =>
      intro a
      left
      rfl
    | cons y l2 ih =>
      intro a
      have hstep : (y :: l2).foldl (fun h e => if e.score > h then e.score else h) a =
          l2.foldl (fun h e => if e.score > h then e.score else h)
            (if y.score > a then y.score else a) := rfl
      rcases ih (if y.score > a then y.score else a) with h | ⟨e, he, hes⟩
      · rw [hstep, h]
        split_ifs with hy
        · right
          exact ⟨y, by simp, rfl⟩
        · left
          rfl
      · right
        exact ⟨e, by simp [he], by rw [hstep, ← hes]⟩
  rcases key l 0 with h | ⟨e, he, hes⟩
  · exact Or.inl h
  · exact Or.inr ⟨e, he, hes⟩

/-- C9.  For a non-empty history with its own high score: each milestone
achievement is present exactly when the high score meets the threshold,
and then it is timestamped at the first entry, in timestamp order, whose
score meets the threshold (such an entry exists); dedicated_player is
present exactly when at least 5 scores exist, timestamped at the 5th
entry in timestamp order. -/
theorem calculateAchievements_characterization (l : List Entry) (hne : l ≠ []) :
    (∀ m ∈ milestones,
      ((calculateAchievements l (runningHigh l)).find? (fun a => a.id = m.id) =
        if runningHigh l ≥ m.score then
          some (milestoneAch (List.insertionSort timeLE l) m)
        else none) ∧
      (runningHigh l ≥ m.score →
        ∃ e, (List.insertionSort timeLE l).find? (fun e => e.score ≥ m.score) = some e ∧
          (milestoneAch (List.insertionSort timeLE l) m).unlockedAt = e.timestamp)) ∧
    ((calculateAchievements l (runningHigh l)).find? (fun a => a.id = "dedicated_player") =
      if 5 ≤ l.length then
        some ⟨"dedicated_player", "Dedicated Player", "Submit 5 or more scores",
          (((List.insertionSort timeLE l).get? 4).map Entry.timestamp).getD 0, "🎮"⟩
      else none) := by
  have hmid : ∀ m ∈ milestones,
      m.id ≠ "first_score" ∧ m.id ≠ "dedicated_player" ∧ m.id ≠ "score_hunter" := by
    decide
  have hmscore : ∀ m ∈ milestones, (1 : Int) ≤ m.score := by
    decide
  have hdist : milestones.Pairwise (fun x y => x.id ≠ y.id) := by
    decide
  cases hsort : List.insertionSort timeLE l with
  | nil =>
    exfalso
    have hp := List.perm_insertionSort timeLE l
    rw [hsort] at hp
    exact hne (List.Perm.eq_nil hp.symm)
  | cons first rest =>
    have hlen : (first :: rest).length = l.length := by
      rw [← hsort]
      exact (List.perm_insertionSort timeLE l).length_eq
    constructor
    · intro m hm
      constructor
      · simp only [calculateAchievements, hsort]
        rw [List.find?_cons_of_neg _
          (by simp only [decide_eq_true_eq]; exact fun hh => (hmid m hm).1 hh.symm)]
        rw [List.find?_append, List.find?_append,
          find_milestone_achs (runningHigh l) (first :: rest) milestones m hm hdist]
        have hded : List.find? (fun a : Achievement => decide (a.id = m.id))
            (if 5 ≤ (first :: rest).length then
              ([⟨"dedicated_player", "Dedicated Player", "Submit 5 or more scores",
                (((first :: rest).get? 4).map Entry.timestamp).getD 0, "🎮"⟩] :
                List Achievement)
            else []) = none := by
          split_ifs with h5
          · rw [List.find?_eq_none]
            intro a ha hpa
            simp only [List.mem_singleton] at ha
            rw [decide_eq_true_eq] at hpa
            rw [ha] at hpa
            exact (hmid m hm).2.1 hpa.symm
          · rfl
        have hhun : List.find? (fun a : Achievement => decide (a.id = m.id))
            (if 10 ≤ (first :: rest).length then
              ([⟨"score_hunter", "Score Hunter", "Submit 10 or more scores",
                (((first :: rest).get? 9).map Entry.timestamp).getD 0, "🏹"⟩] :
                List Achievement)
            else []) = none := by
          split_ifs with h10
          · rw [List.find?_eq_none]
            intro a ha hpa
            simp only [List.mem_singleton] at ha
            rw [decide_eq_true_eq] at hpa
            rw [ha] at hpa
            exact (hmid m hm).2.2 hpa.symm
          · rfl
        rw [hded, hhun]
        split_ifs with h
        · rfl
        · rfl
      · intro hge
        have hpos : (1 : Int) ≤ runningHigh l := le_trans (hmscore m hm) hge
        rcases runningHigh_attained l with h0 | ⟨e, he, hes⟩
        · omega
        · have hmem : e ∈ first :: rest := by
            rw [← hsort]
            exact (List.perm_insertionSort timeLE l).mem_iff.mpr he
          have hsome : ((first :: rest).find? (fun e => e.score ≥ m.score)).isSome = true :=
            List.find?_isSome.mpr ⟨e, hmem, by rw [decide_eq_true_eq]; omega⟩
          obtain ⟨e2, hfind⟩ := Option.isSome_iff_exists.mp hsome
          exact ⟨e2, hfind, by simp [milestoneAch, hfind]⟩
    · simp only [calculateAchievements, hsort]
      rw [List.find?_cons_of_neg _ (by simp)]
      rw [List.find?_append, List.find?_append]
      have hfm : List.find? (fun a => decide (a.id = "dedicated_player"))
          (milestones.filterMap (fun mm =>
            if runningHigh l ≥ mm.score then
              some (milestoneAch (first :: rest) mm)
            else none)) = none := by
        rw [List.find?_eq_none]
        intro a ha hpa
        rw [decide_eq_true_eq] at hpa
        obtain ⟨y, hy, hid⟩ := filterMap_milestone_id (runningHigh l) (first :: rest)
          milestones a ha
        exact (hmid y hy).2.1 (by rw [← hid, hpa])
      rw [hfm, Option.none_or, ← hlen]
      by_cases h5 : 5 ≤ (first :: rest).length
      · rw [if_pos h5, if_pos h5]
        rw [List.find?_cons_of_pos _ (by simp)]
        rfl
      · rw [if_neg h5, if_neg h5]
        have h10 : ¬ 10 ≤ (first :: rest).length := by omega
        rw [if_neg h10]
        rfl

/-- Witness for C9 at a five-entry history crossing the 1000 threshold. -/
theorem calculateAchievements_characterization_witness :
    ((calculateAchievements
        [⟨"ACE", 500, 0⟩, ⟨"ACE", 1200, 1⟩, ⟨"ACE", 900, 2⟩, ⟨"ACE", 6000, 3⟩,
         ⟨"ACE", 100, 4⟩]
        (runningHigh
          [⟨"ACE", 500, 0⟩, ⟨"ACE", 1200, 1⟩, ⟨"ACE", 900, 2⟩, ⟨"ACE", 6000, 3⟩,
           ⟨"ACE", 100, 4⟩])).find? (fun a => a.id = "score_1k") =
      if runningHigh
          [⟨"ACE", 500, 0⟩, ⟨"ACE", 1200, 1⟩, ⟨"ACE", 900, 2⟩, ⟨"ACE", 6000, 3⟩,
           ⟨"ACE", 100, 4⟩] ≥ (1000 : Int) then
        some (milestoneAch
          (List.insertionSort timeLE
            [⟨"ACE", 500, 0⟩, ⟨"ACE", 1200, 1⟩, ⟨"ACE", 900, 2⟩, ⟨"ACE", 6000, 3⟩,
             ⟨"ACE", 100, 4⟩])
          ⟨1000, "score_1k", "Getting Started", "⭐"⟩)
      else none) ∧
    ((calculateAchievements
        [⟨"ACE", 500, 0⟩, ⟨"ACE", 1200, 1⟩, ⟨"ACE", 900, 2⟩, ⟨"ACE", 6000, 3⟩,
         ⟨"ACE", 100, 4⟩]
        (runningHigh
          [⟨"ACE", 500, 0⟩, ⟨"ACE", 1200, 1⟩, ⟨"ACE", 900, 2⟩, ⟨"ACE", 6000, 3⟩,
           ⟨"ACE", 100, 4⟩])).find? (fun a => a.id = "dedicated_player") =
      if 5 ≤ ([⟨"ACE", 500, 0⟩, ⟨"ACE", 1200, 1⟩, ⟨"ACE", 900, 2⟩, ⟨"ACE", 6000, 3⟩,
          (⟨"ACE", 100, 4⟩ : Entry)] : List Entry).length then
        some ⟨"dedicated_player", "Dedicated Player", "Submit 5 or more scores",
          (((List.insertionSort timeLE
            [⟨"ACE", 500, 0⟩, ⟨"ACE", 1200, 1⟩, ⟨"ACE", 900, 2⟩, ⟨"ACE", 6000, 3⟩,
             ⟨"ACE", 100, 4⟩]).get? 4).map Entry.timestamp).getD 0, "🎮"⟩
      else none) := by
  constructor
  · exact ((calculateAchievements_characterization
      [⟨"ACE", 500, 0⟩, ⟨"ACE", 1200, 1⟩, ⟨"ACE", 900, 2⟩, ⟨"ACE", 6000, 3⟩,
       ⟨"ACE", 100, 4⟩] (by exact List.cons_ne_nil _ _)).1
      ⟨1000, "score_1k", "Getting Started", "⭐"⟩ (by exact List.mem_cons_self _ _)).1
  · exact (calculateAchievements_characterization
      [⟨"ACE", 500, 0⟩, ⟨"ACE", 1200, 1⟩, ⟨"ACE", 900, 2⟩, ⟨"ACE", 6000, 3⟩,
       ⟨"ACE", 100, 4⟩] (by exact List.cons_ne_nil _ _)).2

end Rawboard
